import Mathlib

/-!
Verification of the web-guitar-tuner core (src/scripts/tuner.ts).

The pitch-detection engine (`autocorrelate`) is embedded over exact
rationals.  JavaScript typed-array semantics are modeled explicitly:
an out-of-bounds read of a `Float32Array` yields `undefined`, which
behaves like NaN in arithmetic (it poisons every operation) and makes
every `>` / `<` comparison false.  We model a possibly-NaN/undefined
number as `Option ℚ` with `none` for NaN/undefined.  The initial
`maxCorrelation = -Infinity` is modeled separately (`ogtMax`,
`oltFloor`), since -Infinity only ever appears in that variable and is
only compared, never fed to arithmetic.

The note table and the note resolver use `Math.log2` / `Math.pow`, so
that part of the program is embedded over the real numbers with
`Real.logb` and real exponentiation.
-/

namespace Tuner

/-- A PCM buffer (JS `Float32Array`): a length and the stored samples.
`val i` is only meaningful for `i < len`; reads go through `Buffer.read`. -/
structure Buffer where
  len : ℕ
  val : ℕ → ℚ

/-- JS read `buffer[i]`: the stored value in bounds, `undefined` (modeled
`none`, which behaves like NaN downstream) out of bounds. -/
def Buffer.read (b : Buffer) (i : ℕ) : Option ℚ :=
  if i < b.len then some (b.val i) else none

/-- JS multiplication on possibly-NaN values: NaN poisons. -/
def omul : Option ℚ → Option ℚ → Option ℚ
  | some a, some b => some (a * b)
  | _, _ => none

/-- JS addition on possibly-NaN values: NaN poisons. -/
def oadd : Option ℚ → Option ℚ → Option ℚ
  | some a, some b => some (a + b)
  | _, _ => none

/-- JS subtraction on possibly-NaN values: NaN poisons. -/
def osub : Option ℚ → Option ℚ → Option ℚ
  | some a, some b => some (a - b)
  | _, _ => none

/-- JS division on possibly-NaN values.  A zero divisor gives ±Infinity
(or NaN for 0/0) in JS; in the modeled code every divisor is checked
nonzero before dividing (`a !== 0`, and the refined lag is nonzero on
every reachable path, see the safety theorem), so we map that
unreachable case to `none` as well. -/
def odiv : Option ℚ → Option ℚ → Option ℚ
  | some a, some b => if b = 0 then none else some (a / b)
  | _, _ => none

/-- JS comparison `x > y`: false whenever either side is NaN/undefined. -/
def ogt : Option ℚ → Option ℚ → Bool
  | some a, some b => decide (b < a)
  | _, _ => false

/-- JS comparison `x > maxCorrelation`, where `maxCorrelation` starts at
`-Infinity` (modeled `none` in the second operand): every number exceeds
`-Infinity`, and a NaN left operand compares false. -/
def ogtMax : Option ℚ → Option ℚ → Bool
  | none, _ => false
  | some _, none => true
  | some v, some m => decide (m < v)

/-- JS comparison `maxCorrelation < 0.01` with `maxCorrelation` possibly
still `-Infinity` (`none`): `-Infinity < 0.01` is true. -/
def oltFloor : Option ℚ → Bool
  | none => true
  | some m => decide (m < 1 / 100)

/-- JS test `a !== 0` where `a` may be NaN: `NaN !== 0` is true. -/
def jsNeZero : Option ℚ → Bool
  | none => true
  | some q => decide (q ≠ 0)

/-- MIN_FREQUENCY = 65 Hz. -/
def MIN_FREQUENCY : ℚ := 65

/-- MAX_FREQUENCY = 1000 Hz. -/
def MAX_FREQUENCY : ℚ := 1000

/-- MIN_RMS_THRESHOLD = 0.005. -/
def MIN_RMS_THRESHOLD : ℚ := 5 / 1000

/-- The fixed analysis window of the correlation loop (`windowSize = 2048`). -/
def windowSize : ℕ := 2048

/-- `sumSquares` after the first loop of `autocorrelate`:
`Σ_{i=0}^{SIZE-1} buffer[i]²` (all reads in bounds, hence plain `ℚ`). -/
def sumSquaresOf (b : Buffer) : ℚ :=
  (List.range b.len).foldl (fun acc i => acc + b.val i * b.val i) 0

/-- The RMS gate `Math.sqrt(sumSquares / SIZE) < MIN_RMS_THRESHOLD`.
For a nonzero `SIZE` and a nonnegative radicand, `sqrt x < t` (with
`t > 0`) is equivalent to `x < t²`, which is how we state it over `ℚ`.
For `SIZE = 0`, JS computes `sqrt(0/0) = NaN` and `NaN < t` is false,
hence the `0 < b.len` conjunct. -/
def rmsBelowThreshold (b : Buffer) : Bool :=
  decide (0 < b.len) &&
    decide (sumSquaresOf b / (b.len : ℚ) < MIN_RMS_THRESHOLD ^ 2)

/-- `minLag = Math.floor(sampleRate / MAX_FREQUENCY)`.  The sample rate is
positive in every considered run, so the floor is nonnegative and
`Int.toNat` is exact. -/
def minLagOf (sampleRate : ℚ) : ℕ := (⌊sampleRate / MAX_FREQUENCY⌋).toNat

/-- `maxLag = Math.floor(sampleRate / MIN_FREQUENCY)`. -/
def maxLagOf (sampleRate : ℚ) : ℕ := (⌊sampleRate / MIN_FREQUENCY⌋).toNat

/-- One slot of the correlation loop:
`Σ_{i=0}^{windowSize-1} buffer[i] * buffer[i+lag]`, NaN-propagating
(a read past the end of the buffer poisons the whole sum, exactly as the
JS loop produces NaN). -/
def correlationAt (b : Buffer) (lag : ℕ) : Option ℚ :=
  (List.range windowSize).foldl
    (fun acc i => oadd acc (omul (b.read i) (b.read (i + lag)))) (some 0)

/-- The `correlations` Float32Array after step 3 of `autocorrelate`, as a
function of the (integer, since the scan reads `lag - 1`) index:
the array has length `maxLag + 1` and is zero-initialized; slots
`minLag..maxLag` are overwritten with the window correlation; any other
in-range slot keeps its initial `0`; an index outside `[0, maxLag]`
reads `undefined` (`none`). -/
def correlations (b : Buffer) (minLag maxLag : ℕ) : ℤ → Option ℚ :=
  fun lag =>
    if 0 ≤ lag ∧ lag ≤ (maxLag : ℤ) then
      if (minLag : ℤ) ≤ lag then correlationAt b lag.toNat else some 0
    else none

/-- The candidate test of the peak-picking loop:
`correlations[lag] > correlations[lag-1] && correlations[lag] > correlations[lag+1]`. -/
def isPeakCandidate (c : ℤ → Option ℚ) (lag : ℕ) : Bool :=
  ogt (c lag) (c ((lag : ℤ) - 1)) && ogt (c lag) (c ((lag : ℤ) + 1))

/-- The ascending list of scanned lags, `[minLag, ..., maxLag]`
(empty when `maxLag < minLag`, matching the `for` loop). -/
def lagList (minLag maxLag : ℕ) : List ℕ := List.range' minLag (maxLag + 1 - minLag)

/-- Step 4 of `autocorrelate`: the peak-picking scan over the given lags.
The state is `(bestLag, maxCorrelation)` with `bestLag = -1` and
`maxCorrelation = -Infinity` (`none`) initially.  A candidate updates the
state when its correlation exceeds `maxCorrelation`; the loop breaks as
soon as a candidate's correlation exceeds `0.9 * correlations[0]`. -/
def peakScan (c : ℤ → Option ℚ) : List ℕ → ℤ × Option ℚ → ℤ × Option ℚ
  | [], st => st
  | lag :: rest, st =>
    if isPeakCandidate c lag then
      let st1 := if ogtMax (c lag) st.2 then (((lag : ℤ)), c lag) else st
      if ogt (c lag) (omul (some (9 / 10)) (c 0)) then st1
      else peakScan c rest st1
    else peakScan c rest st

/-- Step 5 of `autocorrelate`: parabolic refinement of `bestLag`.
Re-reads the three neighboring correlation slots; the guard
`bestLag > 0 && bestLag < maxLag` and the JS test `a !== 0` are kept as
in the source. -/
def refineLag (c : ℤ → Option ℚ) (maxLag : ℕ) (bestLag : ℤ) : Option ℚ :=
  if 0 < bestLag ∧ bestLag < (maxLag : ℤ) then
    let y1 := c (bestLag - 1)
    let y2 := c bestLag
    let y3 := c (bestLag + 1)
    let a := odiv (osub (oadd y1 y3) (omul (some 2) y2)) (some 2)
    let bq := odiv (osub y3 y1) (some 2)
    if jsNeZero a then osub (some ((bestLag : ℚ))) (odiv bq (omul (some 2) a))
    else some ((bestLag : ℚ))
  else some ((bestLag : ℚ))

/-- `autocorrelate(buffer, sampleRate)` from tuner.ts, over exact
rationals.  The JS function returns a number: the sentinel `-1`
("no signal") or `sampleRate / refinedLag`; a NaN result (impossible on
reachable paths, see the safety theorems) is `none`. -/
def autocorrelate (b : Buffer) (sampleRate : ℚ) : Option ℚ :=
  if rmsBelowThreshold b then some (-1)
  else
    let minLag := minLagOf sampleRate
    let maxLag := maxLagOf sampleRate
    let c := correlations b minLag maxLag
    let st := peakScan c (lagList minLag maxLag) (-1, none)
    if st.1 = -1 ∨ oltFloor st.2 then some (-1)
    else odiv (some sampleRate) (refineLag c maxLag st.1)

/-! Basic facts about the NaN-aware primitives. -/

lemma ogt_eq_true_iff {x y : Option ℚ} :
    ogt x y = true ↔ ∃ a b, x = some a ∧ y = some b ∧ b < a := by
  cases x with
  | none => simp [ogt]
  | some a => cases y <;> simp [ogt]

lemma oadd_none_left (x : Option ℚ) : oadd none x = none := rfl

lemma oadd_none_right (x : Option ℚ) : oadd x none = none := by
  cases x <;> rfl

lemma omul_none_left (x : Option ℚ) : omul none x = none := rfl

lemma omul_none_right (x : Option ℚ) : omul x none = none := by
  cases x <;> rfl

lemma Buffer.read_of_le {b : Buffer} {i : ℕ} (h : b.len ≤ i) : b.read i = none := by
  simp [Buffer.read]
  omega

/-! The correlation window sum and its NaN-poisoning behavior. -/

lemma corrFold_none (b : Buffer) (lag : ℕ) (l : List ℕ) :
    l.foldl (fun acc i => oadd acc (omul (b.read i) (b.read (i + lag)))) none = none := by
  induction l with
  | nil => rfl
  | cons j t ih => simpa [oadd_none_left] using ih

lemma corrFold_poison (b : Buffer) (lag : ℕ) (l : List ℕ) (acc : Option ℚ)
    (h : ∃ i ∈ l, b.read i = none ∨ b.read (i + lag) = none) :
    l.foldl (fun acc i => oadd acc (omul (b.read i) (b.read (i + lag)))) acc = none := by
  induction l generalizing acc with
  | nil =>
    obtain ⟨i, hi, _⟩ := h
    exact absurd hi (List.not_mem_nil i)
  | cons j t ih =>
    rcases h with ⟨i, hi, hnone⟩
    rcases List.mem_cons.mp hi with rfl | hit
    · have hm : omul (b.read i) (b.read (i + lag)) = none := by
        rcases hnone with h | h
        · rw [h, omul_none_left]
        · rw [h, omul_none_right]
      simpa [hm, oadd_none_right] using corrFold_none b lag t
    · exact ih _ ⟨i, hit, hnone⟩

/-- A buffer shorter than the analysis window poisons every correlation
slot: the JS loop reads `buffer[i]` for `i` up to `windowSize - 1` and
any out-of-bounds read turns the whole sum into NaN. -/
lemma correlationAt_of_short {b : Buffer} (h : b.len < windowSize) (lag : ℕ) :
    correlationAt b lag = none := by
  refine corrFold_poison b lag _ _ ⟨b.len, ?_, Or.inl (Buffer.read_of_le le_rfl)⟩
  simpa using h

lemma correlations_eq_none {b : Buffer} {minL maxL : ℕ} {z : ℤ}
    (h : ¬(0 ≤ z ∧ z ≤ (maxL : ℤ))) : correlations b minL maxL z = none := by
  simp [correlations, h]

lemma correlations_isSome_bounds {b : Buffer} {minL maxL : ℕ} {z : ℤ} {w : ℚ}
    (h : correlations b minL maxL z = some w) : 0 ≤ z ∧ z ≤ (maxL : ℤ) := by
  by_contra hc
  rw [correlations_eq_none hc] at h
  exact Option.noConfusion h

lemma mem_lagList {minL maxL lag : ℕ} :
    lag ∈ lagList minL maxL ↔ minL ≤ lag ∧ lag ≤ maxL := by
  simp only [lagList, List.mem_range']
  constructor
  · rintro ⟨i, hi, rfl⟩
    omega
  · rintro ⟨h1, h2⟩
    exact ⟨lag - minL, by omega, by omega⟩

/-! Structure of the peak-picking scan. -/

lemma peakScan_of_no_candidate (c : ℤ → Option ℚ) (l : List ℕ) (st : ℤ × Option ℚ)
    (h : ∀ lag ∈ l, isPeakCandidate c lag = false) : peakScan c l st = st := by
  induction l with
  | nil => rfl
  | cons j t ih =>
    have hj : isPeakCandidate c j = false := h j (List.mem_cons_self j t)
    rw [peakScan, hj]
    exact ih fun lag hl => h lag (List.mem_cons_of_mem j hl)

/-- Whatever the scan returns is either the initial state or a pair
`(lag, correlations[lag])` for some scanned candidate lag. -/
lemma peakScan_result (c : ℤ → Option ℚ) (l : List ℕ) (st : ℤ × Option ℚ) :
    peakScan c l st = st ∨
      ∃ lag ∈ l, isPeakCandidate c lag = true ∧ peakScan c l st = ((lag : ℤ), c lag) := by
  induction l generalizing st with
  | nil => exact Or.inl rfl
  | cons j t ih =>
    by_cases hj : isPeakCandidate c j = true
    · rw [peakScan, hj]
      simp only [if_true]
      set st1 := if ogtMax (c j) st.2 then (((j : ℤ)), c j) else st with hst1
      have hst1' : st1 = st ∨ st1 = (((j : ℤ)), c j) := by
        rw [hst1]
        split
        · exact Or.inr rfl
        · exact Or.inl rfl
      by_cases hex : ogt (c j) (omul (some (9 / 10)) (c 0)) = true
      · rw [if_pos hex]
        rcases hst1' with hkeep | hnew
        · exact Or.inl hkeep
        · exact Or.inr ⟨j, List.mem_cons_self j t, hj, hnew⟩
      · rw [if_neg hex]
        rcases ih st1 with h2 | ⟨lag, hl, hc, he⟩
        · rcases hst1' with h1 | h1
          · exact Or.inl (h2.trans h1)
          · exact Or.inr ⟨j, List.mem_cons_self j t, hj, h2.trans h1⟩
        · exact Or.inr ⟨lag, List.mem_cons_of_mem j hl, hc, he⟩
    · rw [peakScan, eq_false_of_ne_true hj]
      simp only [if_false]
      rcases ih st with h2 | ⟨lag, hl, hc, he⟩
      · exact Or.inl h2
      · exact Or.inr ⟨lag, List.mem_cons_of_mem j hl, hc, he⟩

/-- As long as the slot-0 baseline is zero, a scan prefix containing only
candidates with non-positive correlation neither breaks out early nor
leaves a positive `maxCorrelation`; the first candidate with strictly
positive correlation is therefore adopted as `bestLag` and immediately
triggers the `0.9 * correlations[0]` early exit. -/
lemma peakScan_first_positive (c : ℤ → Option ℚ) (hc0 : c 0 = some 0) :
    ∀ (pre : List ℕ) (st : ℤ × Option ℚ),
      (∀ k ∈ pre, isPeakCandidate c k = true → ∀ w, c k = some w → w ≤ 0) →
      (st.2 = none ∨ ∃ m, st.2 = some m ∧ m ≤ 0) →
      ∀ (p : ℕ) (rest : List ℕ) (v : ℚ),
        isPeakCandidate c p = true → c p = some v → 0 < v →
        peakScan c (pre ++ p :: rest) st = ((p : ℤ), some v) := by
  intro pre
  induction pre with
  | nil =>
    intro st _ hinv p rest v hp hv hvpos
    rw [List.nil_append, peakScan, hp]
    simp only [if_true]
    have hmax : ogtMax (c p) st.2 = true := by
      rcases hinv with h | ⟨m, hm, hm0⟩
      · rw [hv, h]; rfl
      · rw [hv, hm]
        simpa [ogtMax] using lt_of_le_of_lt hm0 hvpos
    have hexit : ogt (c p) (omul (some (9 / 10)) (c 0)) = true := by
      rw [hv, hc0]
      simpa [ogt, omul] using hvpos
    rw [hmax, hexit]
    simp [hv]
  | cons k t ih =>
    intro st hpre hinv p rest v hp hv hvpos
    rw [List.cons_append, peakScan]
    by_cases hk : isPeakCandidate c k = true
    · rw [hk]
      simp only [if_true]
      obtain ⟨w, w', hw, _, _⟩ := ogt_eq_true_iff.mp (Bool.and_elim_left (by rwa [isPeakCandidate] at hk))
      have hwle : w ≤ 0 := hpre k (List.mem_cons_self k t) hk w hw
      have hexit : ogt (c k) (omul (some (9 / 10)) (c 0)) = false := by
        rw [hw, hc0]
        simp [ogt, omul]
        linarith
      rw [hexit]
      simp only [Bool.false_eq_true, if_false]
      set st1 := if ogtMax (c k) st.2 then (((k : ℤ)), c k) else st with hst1
      have hinv1 : st1.2 = none ∨ ∃ m, st1.2 = some m ∧ m ≤ 0 := by
        rw [hst1]
        split
        · exact Or.inr ⟨w, by simpa using hw, hwle⟩
        · exact hinv
      exact ih st1 (fun k' hk' => hpre k' (List.mem_cons_of_mem k hk')) hinv1 p rest v hp hv hvpos
    · rw [eq_false_of_ne_true hk]
      simp only [Bool.false_eq_true, if_false]
      exact ih st (fun k' hk' => hpre k' (List.mem_cons_of_mem k hk')) hinv p rest v hp hv hvpos

/-- Exact-arithmetic fact about the parabolic fit at a strict local
maximum: the curvature coefficient `a` is negative and the refinement
offset `b / (2a)` is smaller than half a lag. -/
lemma parabola_bound {y1 y2 y3 : ℚ} (h1 : y1 < y2) (h3 : y3 < y2) :
    (y1 + y3 - 2 * y2) / 2 < 0 ∧
      |((y3 - y1) / 2) / (2 * ((y1 + y3 - 2 * y2) / 2))| < 1 / 2 := by
  have hA : (0 : ℚ) < 2 * y2 - y1 - y3 := by linarith
  refine ⟨by linarith, ?_⟩
  have hd : 2 * ((y1 + y3 - 2 * y2) / 2) = -(2 * y2 - y1 - y3) := by ring
  rw [hd, div_neg, abs_neg, abs_div, abs_of_pos hA, div_lt_iff₀ hA]
  have : |y3 - y1| < 2 * y2 - y1 - y3 := by
    rcases abs_cases (y3 - y1) with ⟨he, _⟩ | ⟨he, _⟩ <;> linarith
  calc |(y3 - y1) / 2| = |y3 - y1| / 2 := by rw [abs_div, abs_two]
    _ < (2 * y2 - y1 - y3) / 2 := by linarith
    _ ≤ 1 / 2 * (2 * y2 - y1 - y3) := by ring_nf; linarith

/-- The value of the parabolic refinement at a strict local maximum with
in-range neighbors: it is defined (`a < 0` so the JS guard `a !== 0`
takes the refined branch) and lands within half a lag of `bestLag`. -/
lemma refineLag_of_candidate (c : ℤ → Option ℚ) (maxLag : ℕ) (p : ℤ)
    {y1 y2 y3 : ℚ}
    (h0 : 0 < p) (hm : p < (maxLag : ℤ))
    (hy1 : c (p - 1) = some y1) (hy2 : c p = some y2) (hy3 : c (p + 1) = some y3)
    (h1 : y1 < y2) (h3 : y3 < y2) :
    ∃ r : ℚ, refineLag c maxLag p = some r ∧ |r - (p : ℚ)| < 1 / 2 ∧ (p : ℚ) - 1 / 2 < r := by
  have ha := parabola_bound h1 h3
  set aval := (y1 + y3 - 2 * y2) / 2 with haval
  set off := ((y3 - y1) / 2) / (2 * aval) with hoff
  refine ⟨(p : ℚ) - off, ?_, ?_, ?_⟩
  · rw [refineLag, if_pos ⟨h0, hm⟩, hy1, hy2, hy3]
    have hane : aval ≠ 0 := ne_of_lt ha.1
    have h2a : (2 : ℚ) * aval ≠ 0 := by
      simp [hane]
    simp only [oadd, omul, osub, odiv]
    norm_num [jsNeZero, hane, h2a, haval, hoff]
  · simpa using ha.2
  · have := abs_lt.mp ha.2
    linarith

/-- A candidate lag of the scan over the real `correlations` array has
three in-range neighbor slots holding numbers, with the middle one a
strict local maximum; in particular `0 < lag < maxLag`, so the parabolic
refinement guard always holds and `maxLag` itself can never be selected
(its right-neighbor read falls off the end of the array and the
comparison with `undefined` fails). -/
lemma candidate_structure {c : ℤ → Option ℚ} {maxL : ℕ} {p : ℕ}
    (hshape : ∀ z : ℤ, ¬(0 ≤ z ∧ z ≤ (maxL : ℤ)) → c z = none)
    (h : isPeakCandidate c p = true) :
    ∃ y1 y2 y3 : ℚ,
      c ((p : ℤ) - 1) = some y1 ∧
        c (p : ℤ) = some y2 ∧
        c ((p : ℤ) + 1) = some y3 ∧
        y1 < y2 ∧ y3 < y2 ∧ 0 < (p : ℤ) ∧ (p : ℤ) < (maxL : ℤ) := by
  rw [isPeakCandidate, Bool.and_eq_true] at h
  obtain ⟨a, y1, ha, hy1, h1⟩ := ogt_eq_true_iff.mp h.1
  obtain ⟨a', y3, ha', hy3, h3⟩ := ogt_eq_true_iff.mp h.2
  rw [ha] at ha'
  obtain rfl : a = a' := Option.some_injective _ ha'
  have hb1 : 0 ≤ (p : ℤ) - 1 ∧ (p : ℤ) - 1 ≤ (maxL : ℤ) := by
    by_contra hcon
    rw [hshape _ hcon] at hy1
    exact Option.noConfusion hy1
  have hb3 : 0 ≤ (p : ℤ) + 1 ∧ (p : ℤ) + 1 ≤ (maxL : ℤ) := by
    by_contra hcon
    rw [hshape _ hcon] at hy3
    exact Option.noConfusion hy3
  exact ⟨y1, a, y3, hy1, ha, hy3, h1, h3, by omega, by omega⟩

lemma correlations_at_scanned {b : Buffer} {minL maxL lag : ℕ}
    (h1 : minL ≤ lag) (h2 : lag ≤ maxL) :
    correlations b minL maxL (lag : ℤ) = correlationAt b lag := by
  have hc1 : (0 : ℤ) ≤ (lag : ℤ) ∧ (lag : ℤ) ≤ (maxL : ℤ) := by omega
  have hc2 : (minL : ℤ) ≤ (lag : ℤ) := by omega
  rw [correlations]
  simp [hc1, hc2]

/-- `sampleRate ≥ MAX_FREQUENCY` forces `minLag ≥ 1`, so the scan never
touches slot 0 of the correlations array and the zero-initialized slot
is the early-exit baseline. -/
lemma one_le_minLagOf {sr : ℚ} (h : 1000 ≤ sr) : 1 ≤ minLagOf sr := by
  rw [minLagOf]
  have h1 : (1 : ℤ) ≤ ⌊sr / MAX_FREQUENCY⌋ := by
    rw [Int.le_floor]
    rw [MAX_FREQUENCY]
    rw [le_div_iff₀ (by norm_num : (0 : ℚ) < 1000)]
    push_cast
    linarith
  omega

/-- Slot 0 of the correlations array keeps its initial zero whenever
`minLag ≥ 1`: the write loop starts at `minLag` and never reaches it. -/
lemma correlations_zero_of_one_le {b : Buffer} {minL maxL : ℕ}
    (h : 1 ≤ minL) : correlations b minL maxL 0 = some 0 := by
  rw [correlations]
  have hc1 : (0 : ℤ) ≤ (0 : ℤ) ∧ (0 : ℤ) ≤ (maxL : ℤ) := by omega
  have hc2 : ¬((minL : ℤ) ≤ (0 : ℤ)) := by omega
  simp [hc1, hc2]

/-- With a buffer shorter than the analysis window (and a loud enough
signal to pass the RMS gate), every written correlation slot is NaN, the
neighbor comparisons all fail, no candidate is found, and the call falls
through to the NoSignal sentinel `-1`: the out-of-bounds configuration
is silently absorbed rather than reported. -/
lemma autocorrelate_of_short (b : Buffer) (sr : ℚ)
    (hg : rmsBelowThreshold b = false) (hlen : b.len < windowSize) :
    autocorrelate b sr = some (-1) := by
  rw [autocorrelate, if_neg (by simp [hg])]
  simp only []
  have hscan : peakScan (correlations b (minLagOf sr) (maxLagOf sr))
      (lagList (minLagOf sr) (maxLagOf sr)) (-1, none) = (-1, none) := by
    refine peakScan_of_no_candidate _ _ _ fun lag hl => ?_
    obtain ⟨hl1, hl2⟩ := mem_lagList.mp hl
    rw [isPeakCandidate, correlations_at_scanned hl1 hl2,
      correlationAt_of_short hlen]
    rfl
  rw [hscan]
  simp

/-- Decomposition of the scanned lag range around a distinguished lag. -/
lemma lagList_split {minL maxL p : ℕ} (h1 : minL ≤ p) (h2 : p ≤ maxL) :
    lagList minL maxL =
      List.range' minL (p - minL) ++ p :: List.range' (p + 1) (maxL - p) := by
  have hcons : p :: List.range' (p + 1) (maxL - p) = List.range' p (maxL - p + 1) := by
    rw [List.range'_succ]
  rw [hcons]
  have happ := List.range'_append_1 minL (p - minL) (maxL - p + 1)
  rw [lagList]
  rw [show minL + (p - minL) = p by omega] at happ
  rw [show maxL - p + 1 + (p - minL) = maxL + 1 - minL by omega] at happ
  exact happ.symm

/-- Every run of `autocorrelate` on a positive sample rate returns either
the sentinel `-1` or a strictly positive frequency: the function is
total (no exception can escape), every failure branch returns `-1`, and
under exact arithmetic the parabolic refinement always yields a
strictly positive refined lag, so a non-positive or NaN frequency is
never produced. -/
lemma autocorrelate_sound (b : Buffer) (sr : ℚ) (hsr : 0 < sr) :
    autocorrelate b sr = some (-1) ∨
      ∃ q : ℚ, autocorrelate b sr = some q ∧ 0 < q := by
  rw [autocorrelate]
  by_cases hg : rmsBelowThreshold b = true
  · rw [if_pos hg]
    exact Or.inl rfl
  · rw [if_neg hg]
    simp only []
    set minL := minLagOf sr with hminL
    set maxL := maxLagOf sr with hmaxL
    set c := correlations b minL maxL with hc
    set st := peakScan c (lagList minL maxL) (-1, none) with hst
    by_cases hcond : st.1 = -1 ∨ oltFloor st.2 = true
    · rw [if_pos hcond]
      exact Or.inl rfl
    · rw [if_neg hcond]
      push_neg at hcond
      rcases peakScan_result c (lagList minL maxL) (-1, none) with hres | ⟨p, _, hcand, hres⟩
      · rw [← hst] at hres
        exact absurd (by rw [hres]) hcond.1
      · rw [← hst] at hres
        obtain ⟨y1, y2, y3, hy1, hy2, hy3, h1, h3, hp0, hpm⟩ :=
          candidate_structure (fun z hz => correlations_eq_none hz) hcand
        obtain ⟨r, hr, _, hrlo⟩ :=
          refineLag_of_candidate c maxL (p : ℤ) hp0 hpm hy1 hy2 hy3 h1 h3
        have hp1 : (1 : ℚ) ≤ (((p : ℤ) : ℚ)) := by
          have h' : (1 : ℤ) ≤ (p : ℤ) := hp0
          exact_mod_cast h'
        have hrpos : 0 < r := by linarith
        rw [hres]
        simp only []
        rw [hr, odiv, if_neg (ne_of_gt hrpos)]
        exact Or.inr ⟨sr / r, rfl, div_pos hsr hrpos⟩

/-- The twelve chromatic pitch-class names (`NOTE_NAMES`). -/
def NOTE_NAMES : List String :=
  "C" :: "C#" :: "D" :: "D#" :: "E" :: "F" ::
    "F#" :: "G" :: "G#" :: "A" :: "A#" :: "B" :: []

/-- One entry of `NOTE_FREQUENCIES`: `{ note, frequency }`. -/
structure NoteEntry where
  note : String
  frequency : ℝ

/-- The note table built at startup: the double loop over
`octave = 0..8` and `i = 0..11`, pushing
`{ note: NOTE_NAMES[i], frequency: 440 * 2^((noteNumber - 57)/12) }`
with `noteNumber = octave * 12 + i`.  `Math.pow` is real exponentiation
here (the claims are stated over exact real arithmetic). -/
noncomputable def NOTE_FREQUENCIES : List NoteEntry :=
  (List.range 9).flatMap fun octave =>
    (List.range 12).map fun i =>
      ⟨NOTE_NAMES.getD i "",
        440 * (2 : ℝ) ^ ((((octave * 12 + i : ℕ) : ℝ) - 57) / 12)⟩

/-- The equal-temperament reference frequency at table index `n`:
`440 * 2^((n - 57)/12)`. -/
noncomputable def refFreq (n : ℕ) : ℝ := 440 * (2 : ℝ) ^ (((n : ℝ) - 57) / 12)

/-- The generated table in closed form: for any index `n`, the entry is
the pitch class `NOTE_NAMES[n % 12]` paired with the equal-temperament
frequency at `n` (the double loop visits `n = octave * 12 + i` in
ascending order and `octave = n / 12`, `i = n % 12`). -/
lemma NOTE_FREQUENCIES_eq :
    NOTE_FREQUENCIES =
      (List.range 108).map fun n => ⟨NOTE_NAMES.getD (n % 12) "", refFreq n⟩ := rfl

lemma NOTE_FREQUENCIES_length : NOTE_FREQUENCIES.length = 108 := rfl

lemma NOTE_FREQUENCIES_getD {i : ℕ} (h : i < 108) :
    NOTE_FREQUENCIES.getD i ⟨"", 0⟩ = ⟨NOTE_NAMES.getD (i % 12) "", refFreq i⟩ := by
  rw [NOTE_FREQUENCIES_eq, List.getD_eq_getElem _ _ (by simpa using h)]
  simp

lemma refFreq_pos (n : ℕ) : 0 < refFreq n := by
  rw [refFreq]
  positivity

lemma refFreq_strictMono {i j : ℕ} (h : i < j) : refFreq i < refFreq j := by
  rw [refFreq, refFreq, mul_lt_mul_left (by norm_num : (0 : ℝ) < 440),
    Real.rpow_lt_rpow_left_iff one_lt_two]
  have hij : (i : ℝ) < j := by exact_mod_cast h
  linarith

lemma refFreq_57 : refFreq 57 = 440 := by
  rw [refFreq]
  norm_num

lemma refFreq_add_twelve (i : ℕ) : refFreq (i + 12) = 2 * refFreq i := by
  rw [refFreq, refFreq]
  have hexp : (((i + 12 : ℕ) : ℝ) - 57) / 12 = ((i : ℝ) - 57) / 12 + 1 := by
    push_cast
    ring
  rw [hexp, Real.rpow_add two_pos, Real.rpow_one]
  ring

/-- The record `{ note, octave, frequency }` used both for
`findClosestNote` results and for the manually selected target note. -/
structure NoteSel where
  note : String
  octave : ℕ
  frequency : ℝ

/-- `findClosestNote(frequency)` from tuner.ts.  `Math.round` rounds
half-integers toward `+∞`, exactly as Lean's `round` (`⌊x + 1/2⌋`). -/
noncomputable def findClosestNote (frequency : ℝ) : NoteSel :=
  let semitones := 12 * Real.logb 2 (frequency / 440)
  let noteIndex := round semitones + 57
  if noteIndex < 0 ∨ (NOTE_FREQUENCIES.length : ℤ) ≤ noteIndex then
    ⟨"--", 0, 0⟩
  else
    ⟨NOTE_NAMES.getD (noteIndex.toNat % 12) "", noteIndex.toNat / 12,
      (NOTE_FREQUENCIES.getD noteIndex.toNat ⟨"", 0⟩).frequency⟩

/-- The note index computed by `findClosestNote`:
`Math.round(12 * Math.log2(frequency / 440)) + 57`. -/
noncomputable def noteIndexOf (f : ℝ) : ℤ := round (12 * Real.logb 2 (f / 440)) + 57

lemma findClosestNote_eq_ite (f : ℝ) :
    findClosestNote f =
      if noteIndexOf f < 0 ∨ (108 : ℤ) ≤ noteIndexOf f then ⟨"--", 0, 0⟩
      else
        ⟨NOTE_NAMES.getD ((noteIndexOf f).toNat % 12) "", (noteIndexOf f).toNat / 12,
          (NOTE_FREQUENCIES.getD (noteIndexOf f).toNat ⟨"", 0⟩).frequency⟩ := by
  rw [findClosestNote, noteIndexOf]
  norm_num [NOTE_FREQUENCIES_length]

lemma findClosestNote_in_range {f : ℝ}
    (h0 : 0 ≤ noteIndexOf f) (h1 : noteIndexOf f < 108) :
    findClosestNote f =
      ⟨NOTE_NAMES.getD ((noteIndexOf f).toNat % 12) "", (noteIndexOf f).toNat / 12,
        refFreq (noteIndexOf f).toNat⟩ := by
  rw [findClosestNote_eq_ite, if_neg (by omega),
    NOTE_FREQUENCIES_getD (by omega : (noteIndexOf f).toNat < 108)]

/-- A canonical table frequency maps back to its own index. -/
lemma noteIndexOf_refFreq (n : ℕ) : noteIndexOf (refFreq n) = n := by
  rw [noteIndexOf, refFreq]
  rw [show (440 : ℝ) * (2 : ℝ) ^ (((n : ℝ) - 57) / 12) / 440
      = (2 : ℝ) ^ (((n : ℝ) - 57) / 12) by ring]
  rw [Real.logb_rpow (by norm_num : (0 : ℝ) < 2) (by norm_num : (2 : ℝ) ≠ 1)]
  rw [show (12 : ℝ) * (((n : ℝ) - 57) / 12) = (n : ℝ) - 57 by ring]
  rw [show ((n : ℝ) - 57) = (((n : ℤ) - 57 : ℤ) : ℝ) by push_cast; ring, round_intCast]
  omega

/-- The geometric midpoint of two adjacent reference frequencies rounds
up: its `noteIndexOf` is the higher index (`Math.round` sends `k + 1/2`
to `k + 1`). -/
lemma noteIndexOf_geometric_mid (i : ℕ) :
    noteIndexOf (Real.sqrt (refFreq i * refFreq (i + 1))) = (i : ℤ) + 1 := by
  have two_pos : (0 : ℝ) < 2 := by norm_num
  set x : ℝ := ((i : ℝ) - 57) / 12 with hx
  have hnext : (((i + 1 : ℕ) : ℝ) - 57) / 12 = x + 1 / 12 := by
    rw [hx]
    push_cast
    ring
  have h24 : (2 : ℝ) ^ (x + 1 / 24) = 2 ^ x * 2 ^ (1 / 24 : ℝ) := Real.rpow_add two_pos _ _
  have h12 : (2 : ℝ) ^ (x + 1 / 12) = 2 ^ x * 2 ^ (1 / 12 : ℝ) := Real.rpow_add two_pos _ _
  have hvv : (2 : ℝ) ^ (1 / 12 : ℝ) = 2 ^ (1 / 24 : ℝ) * 2 ^ (1 / 24 : ℝ) := by
    rw [← Real.rpow_add two_pos]
    norm_num
  have hkey : refFreq i * refFreq (i + 1) = (440 * (2 : ℝ) ^ (x + 1 / 24)) ^ 2 := by
    rw [refFreq, refFreq, hnext, ← hx, h24, h12, hvv]
    ring
  have hmid : Real.sqrt (refFreq i * refFreq (i + 1)) = 440 * (2 : ℝ) ^ (x + 1 / 24) := by
    rw [hkey]
    exact Real.sqrt_sq (by positivity)
  rw [hmid, noteIndexOf]
  rw [show (440 : ℝ) * (2 : ℝ) ^ (x + 1 / 24) / 440 = (2 : ℝ) ^ (x + 1 / 24) by ring]
  rw [Real.logb_rpow (by norm_num : (0 : ℝ) < 2) (by norm_num : (2 : ℝ) ≠ 1)]
  rw [show (12 : ℝ) * (x + 1 / 24) = ((i : ℝ) - 57) + 1 / 2 by rw [hx]; ring]
  rw [round_eq]
  rw [show (i : ℝ) - 57 + 1 / 2 + 1 / 2 = (((i : ℤ) - 56 : ℤ) : ℝ) by push_cast; ring,
    Int.floor_intCast]
  omega

/-- `calculateCents(detected, target) = 1200 * Math.log2(detected / target)`. -/
noncomputable def calculateCents (detected target : ℝ) : ℝ :=
  1200 * Real.logb 2 (detected / target)

/-- The mode toggle (`currentMode`): `"auto" | "manual"`. -/
inductive TunerMode where
  | auto
  | manual
deriving DecidableEq

/-- What one pass of `audioLoop` shows the user: either a detection
(`updateUI(frequency, note, octave, cents)`) or the waiting status
(`statusBar.textContent = "Esperando audio..."`). -/
inductive TickOut where
  | detection (frequency : ℝ) (note : String) (octave : ℕ) (cents : ℝ)
  | waiting

/-- The per-tick core of `audioLoop` after the frequency estimate: the
`frequency > 0` test, the `currentMode === "manual" && selectedNote`
branch, the fallback to `findClosestNote`, and the cents computation.
The loop body contains no assignment to `currentMode` or
`selectedNote`, so the state components are returned unchanged. -/
noncomputable def audioLoopTick (currentMode : TunerMode)
    (selectedNote : Option NoteSel) (frequency : ℝ) :
    TickOut × TunerMode × Option NoteSel :=
  if 0 < frequency then
    let t :=
      match currentMode, selectedNote with
      | .manual, some sel => sel
      | _, _ => findClosestNote frequency
    (TickOut.detection frequency t.note t.octave
        (calculateCents frequency t.frequency),
      currentMode, selectedNote)
  else
    (TickOut.waiting, currentMode, selectedNote)

/-- `selectNote(note, octave, frequency)` from tuner.ts, restricted to the
engine state it mutates: it pins the selected target and switches to
manual mode (the source calls `setManualMode()` when not already manual,
and `setManualMode` sets `currentMode = "manual"` without touching
`selectedNote`). -/
def selectNote (note : String) (octave : ℕ) (frequency : ℝ) :
    TunerMode × Option NoteSel :=
  (TunerMode.manual, some ⟨note, octave, frequency⟩)

/-! Claim theorems. -/

/-- C2: for every samples buffer and positive sample rate, every failure
path of `autocorrelate` resolves to the NoSignal sentinel `-1` (the
function is total, so no exception escapes), and any non-sentinel result
is a strictly positive frequency — in particular a non-positive or
non-finite refined lag is never propagated into the returned frequency:
under exact arithmetic the refinement always yields a positive lag. -/
theorem autocorrelate_every_failure_is_noSignal (b : Buffer) (sr : ℚ)
    (hsr : 0 < sr) :
    autocorrelate b sr = some (-1) ∨
      ∃ q : ℚ, autocorrelate b sr = some q ∧ 0 < q :=
  autocorrelate_sound b sr hsr

theorem autocorrelate_every_failure_is_noSignal_witness :
    autocorrelate ⟨0, fun _ => 0⟩ 1 = some (-1) ∨
      ∃ q : ℚ, autocorrelate ⟨0, fun _ => 0⟩ 1 = some q ∧ 0 < q :=
  autocorrelate_every_failure_is_noSignal ⟨0, fun _ => 0⟩ 1 (by norm_num)

/-- C4: a buffer shorter than `windowSize + maxLag` (here even shorter
than the window itself) makes the correlation loop read past the buffer
end; the call does not abort with a configuration error — it silently
returns the NoSignal sentinel `-1` (all NaN-poisoned slots fail the
neighbor comparisons, so no candidate is found). -/
theorem short_buffer_silently_coerced_to_noSignal :
    autocorrelate ⟨1, fun _ => 1⟩ 44100 = some (-1) := by
  refine autocorrelate_of_short _ _ ?_ (by norm_num [windowSize])
  rw [rmsBelowThreshold]
  have hsum : sumSquaresOf ⟨1, fun _ => 1⟩ = 1 := by
    norm_num [sumSquaresOf, List.range_succ]
  rw [hsum]
  norm_num [MIN_RMS_THRESHOLD]

/-- C5: the note table has 9 × 12 = 108 entries; entry `i` carries pitch
class `NOTE_NAMES[i % 12]` and frequency `440 · 2^((i − 57)/12)` (octave
`i / 12` is the position of the entry in the generation loop);
frequencies are strictly increasing in the index, entry 57 (A4) is
exactly 440, and each octave step doubles the frequency. -/
theorem note_table_equal_temperament :
    NOTE_FREQUENCIES.length = 108 ∧
      (∀ i : ℕ, i < 108 →
        NOTE_FREQUENCIES.getD i ⟨"", 0⟩ =
          ⟨NOTE_NAMES.getD (i % 12) "", 440 * (2 : ℝ) ^ (((i : ℝ) - 57) / 12)⟩) ∧
      (∀ i j : ℕ, i < j → j < 108 →
        (NOTE_FREQUENCIES.getD i ⟨"", 0⟩).frequency <
          (NOTE_FREQUENCIES.getD j ⟨"", 0⟩).frequency) ∧
      (NOTE_FREQUENCIES.getD 57 ⟨"", 0⟩).frequency = 440 ∧
      (∀ i : ℕ, i + 12 < 108 →
        (NOTE_FREQUENCIES.getD (i + 12) ⟨"", 0⟩).frequency =
          2 * (NOTE_FREQUENCIES.getD i ⟨"", 0⟩).frequency) := by
  refine ⟨NOTE_FREQUENCIES_length, ?entries, ?mono, ?a4, ?doubling⟩
  · intro i hi
    rw [NOTE_FREQUENCIES_getD hi, refFreq]
  · intro i j hij hj
    rw [NOTE_FREQUENCIES_getD (lt_trans hij hj), NOTE_FREQUENCIES_getD hj]
    exact refFreq_strictMono hij
  · rw [NOTE_FREQUENCIES_getD (by norm_num)]
    exact refFreq_57
  · intro i hi
    rw [NOTE_FREQUENCIES_getD hi, NOTE_FREQUENCIES_getD (by omega)]
    exact refFreq_add_twelve i

theorem note_table_equal_temperament_witness :
    NOTE_FREQUENCIES.getD 57 ⟨"", 0⟩ =
        ⟨NOTE_NAMES.getD (57 % 12) "", 440 * (2 : ℝ) ^ ((((57 : ℕ) : ℝ) - 57) / 12)⟩ ∧
      (NOTE_FREQUENCIES.getD 0 ⟨"", 0⟩).frequency <
        (NOTE_FREQUENCIES.getD 57 ⟨"", 0⟩).frequency ∧
      (NOTE_FREQUENCIES.getD (45 + 12) ⟨"", 0⟩).frequency =
        2 * (NOTE_FREQUENCIES.getD 45 ⟨"", 0⟩).frequency :=
  ⟨note_table_equal_temperament.2.1 57 (by norm_num),
    note_table_equal_temperament.2.2.1 0 57 (by norm_num) (by norm_num),
    note_table_equal_temperament.2.2.2.2 45 (by norm_num)⟩

/-- C6: `findClosestNote` computes `round(12·log2(f/440)) + 57`; an index
outside `[0, 108)` yields the placeholder `{"--", 0, 0}` rather than an
error; an in-range index yields the pitch class, octave `index / 12`,
and the canonical table frequency at that index (not the raw input);
the exact geometric midpoint of two adjacent entries deterministically
resolves to the higher note. -/
theorem findClosestNote_spec :
    (∀ f : ℝ, noteIndexOf f < 0 ∨ (108 : ℤ) ≤ noteIndexOf f →
        findClosestNote f = ⟨"--", 0, 0⟩) ∧
      (∀ f : ℝ, 0 ≤ noteIndexOf f → noteIndexOf f < 108 →
        findClosestNote f =
          ⟨NOTE_NAMES.getD ((noteIndexOf f).toNat % 12) "",
            (noteIndexOf f).toNat / 12, refFreq (noteIndexOf f).toNat⟩) ∧
      (∀ i : ℕ, i + 1 < 108 →
        findClosestNote (Real.sqrt (refFreq i * refFreq (i + 1))) =
          ⟨NOTE_NAMES.getD ((i + 1) % 12) "", (i + 1) / 12, refFreq (i + 1)⟩) := by
  refine ⟨?oor, ?inr, ?mid⟩
  case oor =>
    intro f hf
    rw [findClosestNote_eq_ite, if_pos hf]
  · intro f h0 h1
    exact findClosestNote_in_range h0 h1
  · intro i hi
    have hidx := noteIndexOf_geometric_mid i
    have htn : (noteIndexOf (Real.sqrt (refFreq i * refFreq (i + 1)))).toNat = i + 1 := by
      omega
    rw [findClosestNote_in_range (by omega) (by omega), htn]

theorem findClosestNote_spec_witness :
    (0 : ℤ) ≤ noteIndexOf 440 ∧ noteIndexOf 440 < 108 ∧
      findClosestNote 440 =
        ⟨NOTE_NAMES.getD ((noteIndexOf 440).toNat % 12) "",
          (noteIndexOf 440).toNat / 12, refFreq (noteIndexOf 440).toNat⟩ := by
  have hidx : noteIndexOf 440 = 57 := by
    rw [← refFreq_57]
    exact noteIndexOf_refFreq 57
  exact ⟨by rw [hidx]; norm_num, by rw [hidx]; norm_num,
    findClosestNote_spec.2.1 440 (by rw [hidx]; norm_num) (by rw [hidx]; norm_num)⟩

/-- C7: `calculateCents` is `1200 · log2(detected/target)` with no
clamping: positive exactly when the detected frequency is sharp of the
target, negative exactly when flat, zero on equal inputs; in particular
`cents(466.16, 440) > 0`, `cents(415.30, 440) < 0`,
`cents(440, 440) = 0`. -/
theorem calculateCents_sign_spec :
    (∀ d t : ℝ, 0 < d → 0 < t →
        ((0 < calculateCents d t ↔ t < d) ∧ (calculateCents d t < 0 ↔ d < t))) ∧
      (∀ x : ℝ, 0 < x → calculateCents x x = 0) ∧
      0 < calculateCents 466.16 440 ∧
      calculateCents 415.30 440 < 0 ∧
      calculateCents (440 : ℝ) 440 = 0 := by
  have hmain : ∀ d t : ℝ, 0 < d → 0 < t →
      ((0 < calculateCents d t ↔ t < d) ∧ (calculateCents d t < 0 ↔ d < t)) := by
    intro d t hd ht
    constructor
    · rw [calculateCents]
      constructor
      · intro h
        have hlogb : 0 < Real.logb 2 (d / t) := by nlinarith
        have := (Real.logb_pos_iff one_lt_two (div_pos hd ht)).mp hlogb
        rw [lt_div_iff₀ ht, one_mul] at this
        exact this
      · intro h
        have h1 : 1 < d / t := by
          rw [lt_div_iff₀ ht, one_mul]
          exact h
        have := Real.logb_pos one_lt_two h1
        nlinarith
    · rw [calculateCents]
      constructor
      · intro h
        have hlogb : Real.logb 2 (d / t) < 0 := by nlinarith
        have := (Real.logb_neg_iff one_lt_two (div_pos hd ht)).mp hlogb
        rw [div_lt_one ht] at this
        exact this
      · intro h
        have h1 : d / t < 1 := by
          rw [div_lt_one ht]
          exact h
        have := Real.logb_neg one_lt_two (div_pos hd ht) h1
        nlinarith
  have hzero : ∀ x : ℝ, 0 < x → calculateCents x x = 0 := by
    intro x hx
    rw [calculateCents, div_self (ne_of_gt hx), Real.logb_one, mul_zero]
  refine ⟨hmain, hzero, ?_, ?_, hzero 440 (by norm_num)⟩
  · exact (hmain 466.16 440 (by norm_num) (by norm_num)).1.mpr (by norm_num)
  · exact (hmain 415.30 440 (by norm_num) (by norm_num)).2.mpr (by norm_num)

theorem calculateCents_sign_spec_witness :
    (0 : ℝ) < 2 ∧ (0 : ℝ) < 1 ∧ (0 < calculateCents 2 1 ↔ (1 : ℝ) < 2) :=
  ⟨by norm_num, by norm_num,
    (calculateCents_sign_spec.1 2 1 (by norm_num) (by norm_num)).1⟩

/-- C9: with Mode = Manual and a selected target, every tick with a
positive detected frequency emits a DetectionResult carrying exactly the
target's note name and octave — whatever the detected frequency is, and
hence whatever Auto-mode lookup would have produced — with only the
frequency and the cents deviation varying; the tick leaves the mode and
the selected target untouched. -/
theorem manual_target_stable_tick (sel : NoteSel) (f : ℝ) (hf : 0 < f) :
    audioLoopTick TunerMode.manual (some sel) f =
      (TickOut.detection f sel.note sel.octave (calculateCents f sel.frequency),
        TunerMode.manual, some sel) := by
  rw [audioLoopTick, if_pos hf]

theorem manual_target_stable_tick_witness :
    (0 : ℝ) < 440 ∧
      audioLoopTick TunerMode.manual (some ⟨"E", 2, 82.41⟩) 440 =
        (TickOut.detection 440 "E" 2 (calculateCents 440 82.41),
          TunerMode.manual, some ⟨"E", 2, 82.41⟩) :=
  ⟨by norm_num, manual_target_stable_tick ⟨"E", 2, 82.41⟩ 440 (by norm_num)⟩

/-- C1 counterexample: while listening in Manual mode with no target
selected, a tick whose estimate indicates a signal (here 440 Hz) does
not emit a "select a target" status — it emits a full DetectionResult,
falling back to the Auto nearest-note target (A4 at 440 Hz). -/
theorem manual_no_target_tick_emits_detection :
    audioLoopTick TunerMode.manual none 440 =
      (TickOut.detection 440 "A" 4 0, TunerMode.manual, none) := by
  have h440 : findClosestNote 440 = ⟨"A", 4, 440⟩ := by
    have hidx : noteIndexOf 440 = 57 := by
      rw [← refFreq_57]
      exact noteIndexOf_refFreq 57
    rw [findClosestNote_in_range (by rw [hidx]; norm_num) (by rw [hidx]; norm_num), hidx]
    have ht : (57 : ℤ).toNat = 57 := rfl
    rw [ht, refFreq_57]
    rfl
  have hcents : calculateCents (440 : ℝ) 440 = 0 := by
    rw [calculateCents, div_self (by norm_num : (440 : ℝ) ≠ 0), Real.logb_one, mul_zero]
  simp only [audioLoopTick, if_pos (by norm_num : (0 : ℝ) < 440)]
  simp only [h440, hcents]

/-- C1 (amended): while listening in Manual mode with no target
selected, every tick with a signal falls back to the Auto nearest-note
target and emits a DetectionResult; the "select a target" status is only
shown when Manual mode is entered, never by the per-tick loop. -/
theorem manual_no_target_tick_falls_back_to_auto (f : ℝ) (hf : 0 < f) :
    audioLoopTick TunerMode.manual none f =
      (TickOut.detection f (findClosestNote f).note (findClosestNote f).octave
          (calculateCents f (findClosestNote f).frequency),
        TunerMode.manual, none) := by
  simp only [audioLoopTick, if_pos hf]

theorem manual_no_target_tick_falls_back_to_auto_witness :
    (0 : ℝ) < 523.25 ∧
      audioLoopTick TunerMode.manual none 523.25 =
        (TickOut.detection 523.25 (findClosestNote 523.25).note
            (findClosestNote 523.25).octave
            (calculateCents 523.25 (findClosestNote 523.25).frequency),
          TunerMode.manual, none) :=
  ⟨by norm_num, manual_no_target_tick_falls_back_to_auto 523.25 (by norm_num)⟩

/-- C3: with the RMS gate passed and `sampleRate ≥ MAX_FREQUENCY` the
scan range starts at `minLag ≥ 1`, so slot 0 of the correlations buffer
is never written and holds its initial zero, making the early-exit
baseline `0.9 * correlations[0]` zero; a lag is a candidate exactly when
its correlation strictly exceeds both neighbors; the ascending scan
keeps the best candidate so far, but as soon as it meets a candidate
with strictly positive correlation it adopts it and breaks, so
`bestLag` is the first strict local maximum with positive correlation —
not necessarily the global best. -/
theorem peak_scan_stops_at_first_positive_candidate :
    (∀ (b : Buffer) (sr : ℚ), 1000 ≤ sr →
        correlations b (minLagOf sr) (maxLagOf sr) 0 = some 0) ∧
      (∀ (c : ℤ → Option ℚ) (lag : ℕ),
        isPeakCandidate c lag = true ↔
          ∃ v v1 v2 : ℚ, c lag = some v ∧ c ((lag : ℤ) - 1) = some v1 ∧
            c ((lag : ℤ) + 1) = some v2 ∧ v1 < v ∧ v2 < v) ∧
      (∀ (c : ℤ → Option ℚ) (minL maxL p : ℕ) (v : ℚ),
        c 0 = some 0 → minL ≤ p → p ≤ maxL →
        isPeakCandidate c p = true → c (p : ℤ) = some v → 0 < v →
        (∀ k : ℕ, minL ≤ k → k < p → isPeakCandidate c k = true →
          ∀ w : ℚ, c (k : ℤ) = some w → w ≤ 0) →
        peakScan c (lagList minL maxL) (-1, none) = ((p : ℤ), some v)) := by
  refine ⟨?baseline, ?candidacy, ?firstpos⟩
  case baseline =>
    intro b sr hsr
    exact correlations_zero_of_one_le (one_le_minLagOf hsr)
  · intro c lag
    rw [isPeakCandidate, Bool.and_eq_true]
    constructor
    · rintro ⟨h1, h2⟩
      obtain ⟨a, v1, ha, hv1, l1⟩ := ogt_eq_true_iff.mp h1
      obtain ⟨a', v2, ha', hv2, l2⟩ := ogt_eq_true_iff.mp h2
      rw [ha] at ha'
      obtain rfl : a = a' := Option.some_injective _ ha'
      exact ⟨a, v1, v2, ha, hv1, hv2, l1, l2⟩
    · rintro ⟨v, v1, v2, hv, hv1, hv2, l1, l2⟩
      exact ⟨ogt_eq_true_iff.mpr ⟨v, v1, hv, hv1, l1⟩,
        ogt_eq_true_iff.mpr ⟨v, v2, hv, hv2, l2⟩⟩
  · intro c minL maxL p v hc0 hmp hpm hcand hv hvpos hpre
    rw [lagList_split hmp hpm]
    refine peakScan_first_positive c hc0 _ (-1, none) ?_ (Or.inl rfl) p _ v hcand hv hvpos
    intro k hk hkc w hw
    obtain ⟨i, hi, rfl⟩ := List.mem_range'.mp hk
    exact hpre _ (by omega) (by omega) hkc w hw

/-- A concrete small correlation profile: a single positive strict local
maximum at lag 2 inside the scanned range [1, 3]. -/
def scanProbeA : ℤ → Option ℚ :=
  fun z => if z = 2 then some 1 else if 0 ≤ z ∧ z ≤ 3 then some 0 else none

theorem peak_scan_stops_at_first_positive_candidate_witness :
    correlations ⟨0, fun _ => 0⟩ (minLagOf 1000) (maxLagOf 1000) 0 = some 0 ∧
      scanProbeA 0 = some 0 ∧
      isPeakCandidate scanProbeA 2 = true ∧
      peakScan scanProbeA (lagList 1 3) (-1, none) = (((2 : ℕ) : ℤ), some 1) := by
  refine ⟨peak_scan_stops_at_first_positive_candidate.1 ⟨0, fun _ => 0⟩ 1000 (by norm_num),
    by with_unfolding_all decide, by with_unfolding_all decide, ?_⟩
  refine peak_scan_stops_at_first_positive_candidate.2.2 scanProbeA 1 3 2 1
    (by with_unfolding_all decide) (by norm_num) (by norm_num)
    (by with_unfolding_all decide) (by with_unfolding_all decide) (by norm_num) ?_
  intro k hk1 hk2 hcand w hw
  obtain rfl : k = 1 := by omega
  exact absurd hcand (by with_unfolding_all decide)

/-- C8: `autocorrelate` returns the NoSignal sentinel `-1` whenever the
RMS gate fires (`RMS < MIN_RMS_THRESHOLD = 0.005`; the gate returns
before the correlation loop is entered), in particular on every nonempty
all-zero buffer whose RMS is 0; and likewise whenever the scan found no
candidate (`bestLag = -1`) or the best candidate's correlation is below
the absolute floor `0.01`. -/
theorem autocorrelate_noSignal_gates :
    (∀ (b : Buffer) (sr : ℚ), rmsBelowThreshold b = true →
        autocorrelate b sr = some (-1)) ∧
      (∀ (n : ℕ) (sr : ℚ), 0 < n →
        autocorrelate ⟨n, fun _ => 0⟩ sr = some (-1)) ∧
      (∀ (b : Buffer) (sr : ℚ),
        (peakScan (correlations b (minLagOf sr) (maxLagOf sr))
            (lagList (minLagOf sr) (maxLagOf sr)) (-1, none)).1 = -1 →
        autocorrelate b sr = some (-1)) ∧
      (∀ (b : Buffer) (sr : ℚ),
        oltFloor (peakScan (correlations b (minLagOf sr) (maxLagOf sr))
            (lagList (minLagOf sr) (maxLagOf sr)) (-1, none)).2 = true →
        autocorrelate b sr = some (-1)) := by
  have hgate : ∀ (b : Buffer) (sr : ℚ), rmsBelowThreshold b = true →
      autocorrelate b sr = some (-1) := by
    intro b sr h
    rw [autocorrelate, if_pos h]
  refine ⟨hgate, ?_, ?_, ?_⟩
  · intro n sr hn
    refine hgate _ sr ?_
    have hsum : sumSquaresOf ⟨n, fun _ => 0⟩ = 0 := by
      rw [sumSquaresOf]
      have h : ∀ (l : List ℕ) (acc : ℚ),
          l.foldl (fun a i =>
            a + (Buffer.mk n fun _ => (0 : ℚ)).val i *
              (Buffer.mk n fun _ => (0 : ℚ)).val i) acc = acc := fun l => by
        induction l with
        | nil => exact fun _ => rfl
        | cons j t ih => exact fun acc => by simp [ih _]
      exact h _ 0
    rw [rmsBelowThreshold, hsum]
    have h1 : (0 : ℚ) / ((⟨n, fun _ => 0⟩ : Buffer).len : ℚ) < MIN_RMS_THRESHOLD ^ 2 := by
      rw [zero_div, MIN_RMS_THRESHOLD]
      norm_num
    simp only [Bool.and_eq_true, decide_eq_true_eq]
    exact ⟨hn, h1⟩
  · intro b sr h
    rw [autocorrelate]
    by_cases hg : rmsBelowThreshold b = true
    · rw [if_pos hg]
    · rw [if_neg hg]
      simp only []
      rw [if_pos (Or.inl h)]
  · intro b sr h
    rw [autocorrelate]
    by_cases hg : rmsBelowThreshold b = true
    · rw [if_pos hg]
    · rw [if_neg hg]
      simp only []
      rw [if_pos (Or.inr h)]

theorem autocorrelate_noSignal_gates_witness :
    rmsBelowThreshold ⟨1, fun _ => 0⟩ = true ∧
      autocorrelate ⟨1, fun _ => 0⟩ 44100 = some (-1) ∧
      autocorrelate ⟨4096, fun _ => 0⟩ 44100 = some (-1) ∧
      (peakScan (correlations ⟨0, fun _ => 0⟩ (minLagOf 1) (maxLagOf 1))
          (lagList (minLagOf 1) (maxLagOf 1)) (-1, none)).1 = -1 ∧
      oltFloor (peakScan (correlations ⟨0, fun _ => 0⟩ (minLagOf 1) (maxLagOf 1))
          (lagList (minLagOf 1) (maxLagOf 1)) (-1, none)).2 = true ∧
      autocorrelate ⟨0, fun _ => 0⟩ 1 = some (-1) := by
  have hg : rmsBelowThreshold ⟨1, fun _ => (0 : ℚ)⟩ = true := by
    with_unfolding_all decide
  have hscan : peakScan (correlations ⟨0, fun _ => 0⟩ (minLagOf 1) (maxLagOf 1))
      (lagList (minLagOf 1) (maxLagOf 1)) (-1, none) = (-1, none) := by
    have h0 : minLagOf 1 = 0 := by with_unfolding_all decide
    have h1 : maxLagOf 1 = 0 := by with_unfolding_all decide
    rw [h0, h1]
    refine peakScan_of_no_candidate _ _ _ fun lag hl => ?_
    obtain ⟨ha, hb⟩ := mem_lagList.mp hl
    obtain rfl : lag = 0 := by omega
    rw [isPeakCandidate, correlations_at_scanned le_rfl le_rfl,
      correlationAt_of_short (by norm_num [windowSize])]
    rfl
  refine ⟨hg, autocorrelate_noSignal_gates.1 _ 44100 hg,
    autocorrelate_noSignal_gates.2.1 4096 44100 (by norm_num),
    by rw [hscan], by rw [hscan]; rfl,
    autocorrelate_noSignal_gates.2.2.2 ⟨0, fun _ => 0⟩ 1 (by rw [hscan]; rfl)⟩

/-- C10: whenever the scan hands a `bestLag ≠ -1` to the refinement step
(the correlations array being undefined outside `[0, maxLag]`, so the
right-neighbor comparison of lag `maxLag` fails and `maxLag` can never
be selected; `sampleRate ≥ MAX_FREQUENCY` makes `minLag ≥ 1`), that
`bestLag` is a strict local maximum with `minLag ≤ bestLag < maxLag`, so
the guard `bestLag > 0 && bestLag < maxLag` holds and all three neighbor
reads are in bounds; under exact arithmetic the curvature
`a = (y1 + y3 - 2·y2)/2` is negative, the refined lag lies in
`(bestLag - 1/2, bestLag + 1/2)` and is strictly positive, and the
returned frequency `sampleRate / refinedLag` is positive and finite. -/
theorem refinement_always_safe :
    (∀ sr : ℚ, 1000 ≤ sr → 1 ≤ minLagOf sr) ∧
      (∀ (b : Buffer) (minL maxL : ℕ) (z : ℤ), ¬(0 ≤ z ∧ z ≤ (maxL : ℤ)) →
        correlations b minL maxL z = none) ∧
      (∀ (c : ℤ → Option ℚ) (minL maxL : ℕ),
        (∀ z : ℤ, ¬(0 ≤ z ∧ z ≤ (maxL : ℤ)) → c z = none) →
        (peakScan c (lagList minL maxL) (-1, none)).1 ≠ -1 →
        ∃ p : ℕ, (peakScan c (lagList minL maxL) (-1, none)).1 = (p : ℤ) ∧
          minL ≤ p ∧ p ≤ maxL ∧ isPeakCandidate c p = true ∧
          0 < (p : ℤ) ∧ (p : ℤ) < (maxL : ℤ) ∧
          ∃ y1 y2 y3 : ℚ, c ((p : ℤ) - 1) = some y1 ∧ c (p : ℤ) = some y2 ∧
            c ((p : ℤ) + 1) = some y3 ∧ y1 < y2 ∧ y3 < y2 ∧
            (y1 + y3 - 2 * y2) / 2 < 0 ∧
            ∃ r : ℚ, refineLag c maxL (p : ℤ) = some r ∧
              |r - (((p : ℤ) : ℚ))| < 1 / 2 ∧ 0 < r ∧
              ∀ sr : ℚ, 0 < sr →
                odiv (some sr) (some r) = some (sr / r) ∧ 0 < sr / r) := by
  refine ⟨fun sr h => one_le_minLagOf h, fun b minL maxL z hz => correlations_eq_none hz, ?_⟩
  intro c minL maxL hshape hne
  rcases peakScan_result c (lagList minL maxL) (-1, none) with hres | ⟨p, hp, hcand, hres⟩
  · exact absurd (by rw [hres]) hne
  · obtain ⟨hmp, hpm⟩ := mem_lagList.mp hp
    obtain ⟨y1, y2, y3, hy1, hy2, hy3, h1, h3, hp0, hpmax⟩ :=
      candidate_structure hshape hcand
    have hapar := (parabola_bound h1 h3).1
    obtain ⟨r, hr, hrclose, hrlo⟩ :=
      refineLag_of_candidate c maxL (p : ℤ) hp0 hpmax hy1 hy2 hy3 h1 h3
    have hp1 : (1 : ℚ) ≤ (((p : ℤ) : ℚ)) := by
      have h' : (1 : ℤ) ≤ (p : ℤ) := hp0
      exact_mod_cast h'
    have hrpos : 0 < r := by linarith
    refine ⟨p, by rw [hres], hmp, hpm, hcand, hp0, hpmax,
      y1, y2, y3, hy1, hy2, hy3, h1, h3, hapar,
      r, hr, hrclose, hrpos, ?_⟩
    intro sr hsr
    rw [odiv, if_neg (ne_of_gt hrpos)]
    exact ⟨rfl, div_pos hsr hrpos⟩

/-- A concrete correlation profile driving the scan into the refinement
step: a single positive strict local maximum at lag 2 in range [1, 3]. -/
def scanProbeB : ℤ → Option ℚ :=
  fun z => if z = 2 then some 1 else if 0 ≤ z ∧ z ≤ 3 then some 0 else none

theorem refinement_always_safe_witness :
    1 ≤ minLagOf 1000 ∧
      (peakScan scanProbeB (lagList 1 3) (-1, none)).1 ≠ -1 ∧
      (∃ p : ℕ, (peakScan scanProbeB (lagList 1 3) (-1, none)).1 = (p : ℤ) ∧
        1 ≤ p ∧ p ≤ 3 ∧ isPeakCandidate scanProbeB p = true ∧
        0 < (p : ℤ) ∧ (p : ℤ) < ((3 : ℕ) : ℤ) ∧
        ∃ y1 y2 y3 : ℚ, scanProbeB ((p : ℤ) - 1) = some y1 ∧
          scanProbeB (p : ℤ) = some y2 ∧
          scanProbeB ((p : ℤ) + 1) = some y3 ∧ y1 < y2 ∧ y3 < y2 ∧
          (y1 + y3 - 2 * y2) / 2 < 0 ∧
          ∃ r : ℚ, refineLag scanProbeB 3 (p : ℤ) = some r ∧
            |r - (((p : ℤ) : ℚ))| < 1 / 2 ∧ 0 < r ∧
            ∀ sr : ℚ, 0 < sr →
              odiv (some sr) (some r) = some (sr / r) ∧ 0 < sr / r) := by
  have hshape : ∀ z : ℤ, ¬(0 ≤ z ∧ z ≤ ((3 : ℕ) : ℤ)) → scanProbeB z = none := by
    intro z hz
    have h3 : ((3 : ℕ) : ℤ) = 3 := rfl
    rw [h3] at hz
    have h2 : ¬(z = 2) := by omega
    have hb : ¬(0 ≤ z ∧ z ≤ 3) := hz
    simp [scanProbeB, h2, hb]
  have hne : (peakScan scanProbeB (lagList 1 3) (-1, none)).1 ≠ -1 := by
    with_unfolding_all decide
  exact ⟨refinement_always_safe.1 1000 (by norm_num), hne,
    refinement_always_safe.2.2 scanProbeB 1 3 hshape hne⟩

end Tuner
